import Mathlib

set_option linter.unusedSectionVars false

/-!
# Verification of the mini database engine (Engine.h)

Shallow embedding of `src/Engine.h`: an append-only record heap with two
binary-search-tree indexes (`idIndex : int → RID`, `lastIndex : string →
vector<int>`), supporting insertion, soft deletion, point lookup, id-range
query and last-name-prefix query.

`BST.h` and `Record.h` are not part of `src/`; the `BST` and `Record` types
below are modelled from the specification (sections 3 and 4.1).  The
comparison-counter instrumentation of the ordered index is not modelled:
no claim under consideration concerns comparison counts, and the counters
have no effect on any operation's result or on the data structures.

C++ `int` values are modelled as `Int` (no claim involves overflow).
Record identifiers (RIDs) are stored as `Int`, exactly as the C++ code
stores them in `BST<int,int>` and `vector<int>`.  A C++ `std::string` is a
finite sequence of characters compared lexicographically by `operator<`;
it is modelled as `List Char` (whose order is exactly lexicographic), so
that all operations compute by kernel reduction.

Two functions of the source (`insertRecord`, declared `int`, and the
success path of `deleteById`, declared `bool`) reach the end of the
function body without a `return` statement; the missing return value is
rendered as `Option.none`, while the paths that do execute a `return`
statement produce `some` of the returned value.
-/

namespace MiniDB

/-- A C++ `std::string`: a finite character sequence, ordered
lexicographically (the `List` order is lexicographic, matching
`std::string::operator<`). -/
abbrev Str : Type := List Char

/-- Embeds `toLower` from Engine.h applied to one character: C `tolower`
in the default locale maps `A`–`Z` to `a`–`z` and leaves every other
byte unchanged. -/
def lowerChar (c : Char) : Char :=
  if 'A' ≤ c ∧ c ≤ 'Z' then Char.ofNat (c.toNat + 32) else c

/-- Embeds `toLower` from Engine.h: lowercases every character of the
string (used for case-insensitive searches). -/
def toLower (s : Str) : Str :=
  s.map lowerChar

/-- Modelled from the spec (section 3, Ordered Index node): `BST.h` is not
under `src/`.  A node holds one key, one value and exclusive ownership of a
left and a right child subtree; either child may be absent. -/
inductive BST (K V : Type) where
  | nil : BST K V
  | node (l : BST K V) (key : K) (val : V) (r : BST K V) : BST K V
deriving Repr

variable {K V : Type} [LinearOrder K]

/-- Modelled from the spec (section 4.1, `find`): descends from the root
comparing the key against each visited node's key until an equal key is
found or a missing child is reached (absent). -/
def BST.find : BST K V → K → Option V
  | .nil, _ => none
  | .node l k v r, x =>
    if x < k then l.find x
    else if k < x then r.find x
    else some v

/-- Modelled from the spec (section 4.1, `insert`): if the key is absent a
new node is created in the correct binary-search-tree position; if the key
is already present the associated value is replaced in place (upsert), so
no duplicate nodes exist for one key. -/
def BST.insert : BST K V → K → V → BST K V
  | .nil, x, y => .node .nil x y .nil
  | .node l k v r, x, y =>
    if x < k then .node (l.insert x y) k v r
    else if k < x then .node l k v (r.insert x y)
    else .node l k y r

/-- The key/value pair of the leftmost node (the in-order minimum), or
`none` for an empty tree. -/
def BST.minKV : BST K V → Option (K × V)
  | .nil => none
  | .node l k v _ => some ((l.minKV).getD (k, v))

/-- Removes the leftmost node: a leftmost leaf is unlinked, a leftmost
node with a right child is replaced by that child. -/
def BST.eraseMin : BST K V → BST K V
  | .nil => .nil
  | .node .nil _ _ r => r
  | .node (.node a b c d) k v r => .node (BST.node a b c d).eraseMin k v r

/-- Modelled from the spec (section 4.1, `erase`): locates the node; if
absent the tree is unchanged.  A leaf is unlinked; a node with one child is
replaced by that child; a node with two children is replaced by its
in-order successor (the leftmost node of its right subtree), whose
key/value are copied into the erased node's slot and whose original node
is then removed by the one-child/leaf rule. -/
def BST.erase : BST K V → K → BST K V
  | .nil, _ => .nil
  | .node l k v r, x =>
    if x < k then .node (l.erase x) k v r
    else if k < x then .node l k v (r.erase x)
    else
      match l, r with
      | .nil, r => r
      | l, .nil => l
      | l, r => .node l ((r.minKV).getD (k, v)).1 ((r.minKV).getD (k, v)).2 r.eraseMin

/-- Modelled from the spec (section 4.1, `rangeApply`): in-order traversal
restricted to keys in `[lo, hi]` inclusive, visiting each qualifying key in
ascending key order; a subtree whose root key is at or below `lo` does not
visit its left child, one whose root key is at or above `hi` does not visit
its right child.  The visitor only ever appends to an external sequence, so
the call is modelled as the list of visited `(key, value)` pairs in visit
order. -/
def BST.rangeApply : BST K V → K → K → List (K × V)
  | .nil, _, _ => []
  | .node l k v r, lo, hi =>
    (if lo < k then l.rangeApply lo hi else [])
    ++ (if lo ≤ k ∧ k ≤ hi then [(k, v)] else [])
    ++ (if k < hi then r.rangeApply lo hi else [])

/-- In-order flattening of the tree, used only in proofs. -/
def BST.toList : BST K V → List (K × V)
  | .nil => []
  | .node l k v r => l.toList ++ (k, v) :: r.toList

/-- All keys of the tree satisfy `p` (proof-side predicate). -/
def BST.All (p : K → Prop) : BST K V → Prop
  | .nil => True
  | .node l k _ r => p k ∧ l.All p ∧ r.All p

/-- The binary-search-tree ordering invariant: at every node, all keys of
the left subtree are smaller and all keys of the right subtree larger than
the node's key. -/
def BST.Ordered : BST K V → Prop
  | .nil => True
  | .node l k _ r => l.Ordered ∧ r.Ordered ∧ l.All (· < k) ∧ r.All (k < ·)

instance BST.instDecidableAll {p : K → Prop} [DecidablePred p] :
    ∀ t : BST K V, Decidable (t.All p)
  | .nil => isTrue trivial
  | .node l k _ r =>
    have : Decidable (l.All p) := BST.instDecidableAll l
    have : Decidable (r.All p) := BST.instDecidableAll r
    inferInstanceAs (Decidable (p k ∧ l.All p ∧ r.All p))

instance BST.instDecidableOrdered : ∀ t : BST K V, Decidable t.Ordered
  | .nil => isTrue trivial
  | .node l k _ r =>
    have : Decidable l.Ordered := BST.instDecidableOrdered l
    have : Decidable r.Ordered := BST.instDecidableOrdered r
    inferInstanceAs (Decidable (l.Ordered ∧ r.Ordered ∧
      l.All (fun a => a < k) ∧ r.All (fun a => k < a)))

/-- Modelled from the spec (section 3, Record): a unique integer
identifier `id`, a string grouping key `last`, and a boolean `deleted`
flag; the other fields of `Record.h` are opaque to the engine and are
irrelevant to indexing, so they are not modelled. -/
structure Record where
  id : Int
  last : Str
  deleted : Bool
deriving Repr, DecidableEq

instance : Inhabited Record := ⟨⟨0, [], false⟩⟩

/-- Reads `heap[rid]` for an `int` subscript `rid`.  The C++ access has
defined behaviour only for `0 ≤ rid < heap.size()`; outside those bounds
the model returns the default record. -/
def heapGetD (heap : List Record) (rid : Int) : Record :=
  if 0 ≤ rid then heap.getD rid.toNat default else default

/-- Writes `heap[rid].deleted = true` for an `int` subscript `rid`.  The
C++ write has defined behaviour only in bounds; outside bounds the model
leaves the heap unchanged. -/
def setDeleted : List Record → Int → List Record
  | [], _ => []
  | r :: rest, rid =>
    if rid = 0 then { r with deleted := true } :: rest
    else r :: setDeleted rest (rid - 1)

/-- Embeds `struct Engine` from Engine.h: the heap (record store) and the
two index trees. -/
structure Engine where
  heap : List Record
  idIndex : BST Int Int
  lastIndex : BST Str (List Int)

/-- The engine in its initial state: empty heap, both indexes empty. -/
def Engine.empty : Engine := ⟨[], .nil, .nil⟩

/-- Embeds `Engine::insertRecord`: appends the record to the heap, maps
its id to the new RID in `idIndex`, and appends the RID to the
`lastIndex` bucket of its lowercase last name (creating the bucket if
absent; the C++ code appends through the pointer returned by `find`,
modelled as replacing the bucket value).  The function is declared to
return `int` but reaches the end of the body without a `return`
statement, so no return value is produced (`none`). -/
def Engine.insertRecord (e : Engine) (recIn : Record) : Engine × Option Int :=
  let recordID : Int := e.heap.length
  let heap := e.heap ++ [recIn]
  let idIndex := e.idIndex.insert recIn.id recordID
  let lastName := toLower recIn.last
  let lastIndex :=
    match e.lastIndex.find lastName with
    | none => e.lastIndex.insert lastName [recordID]
    | some records => e.lastIndex.insert lastName (records ++ [recordID])
  (⟨heap, idIndex, lastIndex⟩, none)

/-- Embeds `Engine::deleteById`: looks the id up in `idIndex`; if absent,
returns `false`.  Otherwise marks the heap record deleted, erases the id
from `idIndex`, removes the RID from the bucket of the record's stored
lowercase last name (the `remove`/`erase` idiom removes every occurrence),
erasing the bucket's key when the bucket becomes empty.  The success path
reaches the end of the body without a `return` statement, so it produces
no return value (`none`); only the absent path returns a value. -/
def Engine.deleteById (e : Engine) (id : Int) : Engine × Option Bool :=
  match e.idIndex.find id with
  | none => (e, some false)
  | some recordID =>
    let heap := setDeleted e.heap recordID
    let idIndex := e.idIndex.erase id
    let lastName := toLower (heapGetD heap recordID).last
    let lastIndex :=
      match e.lastIndex.find lastName with
      | none => e.lastIndex
      | some records =>
        let rem := records.filter (fun x => x ≠ recordID)
        if rem.isEmpty then e.lastIndex.erase lastName
        else e.lastIndex.insert lastName rem
    (⟨heap, idIndex, lastIndex⟩, none)

/-- Embeds `Engine::findById` (the record part; the comparison count is
not modelled): finds the id in `idIndex`; absent, or present but pointing
at a soft-deleted heap record, yields `none`; otherwise the heap record.
The C++ heap access `heap[*idPtr]` is unchecked and is defined only for an
in-bounds RID. -/
def Engine.findById (e : Engine) (id : Int) : Option Record :=
  match e.idIndex.find id with
  | none => none
  | some idPtr =>
    let record := heapGetD e.heap idPtr
    if record.deleted = true then none else some record

/-- Embeds `Engine::rangeById` (the record list; the comparison count is
not modelled): traverses `idIndex` over `[lo, hi]`, keeping each visited
RID that is in heap bounds and whose record is not soft-deleted.  The C++
visitor appends pointers `&heap[recordID]`; a pointer into the heap is
identified by its RID, so the model collects the kept RIDs in visit
order. -/
def Engine.rangeById (e : Engine) (lo hi : Int) : List Int :=
  (e.idIndex.rangeApply lo hi).filterMap (fun kv =>
    if 0 ≤ kv.2 ∧ kv.2 < (e.heap.length : Int) ∧ (heapGetD e.heap kv.2).deleted = false
    then some kv.2 else none)

/-- Embeds `Engine::prefixByLast` (the record list; the comparison count
is not modelled): lowercases the argument, traverses `lastIndex` from it
up to the sentinel `"~"`, skips keys that do not start with the lowered
argument (`key.rfind(arg, 0) != 0`), and for each kept key walks the
bucket.  The bucket test reproduces the source exactly: the parenthesised
bound is `(int)(heap.size() && !heap[recordID].deleted)`, i.e. the boolean
`heap.size() != 0 && !heap[recordID].deleted` cast to `0` or `1`, so a RID
is kept only when `0 ≤ recordID < ` that `0`-or-`1` value.  (When the heap
is non-empty the C++ code reads `heap[recordID]` inside this bound with no
bounds check; the read is defined only for an in-bounds RID.) -/
def Engine.prefixByLast (e : Engine) (pfx : Str) : List Int :=
  let lowerPfx := toLower pfx
  (e.lastIndex.rangeApply lowerPfx ['~']).foldl (fun acc kv =>
    if lowerPfx.isPrefixOf kv.1 = false then acc
    else acc ++ kv.2.filterMap (fun recordID =>
      if 0 ≤ recordID ∧
          recordID < (if e.heap.length ≠ 0 ∧ (heapGetD e.heap recordID).deleted = false
                      then (1 : Int) else 0)
      then some recordID else none)) []

/-- Every `idIndex` entry points into the heap, at a record that carries
the entry's key as its id. -/
def IdxPointsTo (e : Engine) : Prop :=
  ∀ k rid, e.idIndex.find k = some rid →
    0 ≤ rid ∧ rid.toNat < e.heap.length ∧ (heapGetD e.heap rid).id = k

/-- Every `idIndex` entry points at a record that is not soft-deleted. -/
def IdxLive (e : Engine) : Prop :=
  ∀ k rid, e.idIndex.find k = some rid → (heapGetD e.heap rid).deleted = false

/-- Every live heap record is indexed in `idIndex` under its id. -/
def IdxComplete (e : Engine) : Prop :=
  ∀ n : Nat, n < e.heap.length → (heapGetD e.heap (n : Int)).deleted = false →
    e.idIndex.find (heapGetD e.heap (n : Int)).id = some (n : Int)

/-- The id-index representation invariant: the tree is search-ordered and
every entry points at an in-bounds, live heap record carrying the entry's
key as its id. -/
def EngineInvId (e : Engine) : Prop :=
  e.idIndex.Ordered ∧ IdxPointsTo e ∧ IdxLive e

/-- The full id-index invariant: additionally, every live heap record is
indexed, so `idIndex` entries and live records are in bijection. -/
def EngineInv (e : Engine) : Prop :=
  EngineInvId e ∧ IdxComplete e

/-- One engine call, as a transition on the modelled state.  `findById`,
`rangeById` and `prefixByLast` do not change the heap or either index, so
only `insertRecord` and `deleteById` appear.  Per the Record contract
(spec sections 3 and 6) the `deleted` flag of a record handed to
`insertRecord` is initialised false. -/
inductive Step : Engine → Engine → Prop
  | insert (e : Engine) (r : Record) (hr : r.deleted = false) :
      Step e (e.insertRecord r).1
  | delete (e : Engine) (id : Int) :
      Step e (e.deleteById id).1

/-- `Step` further restricted by the caller responsibility of spec
section 4.2: a record is only inserted while its id is not currently
mapped by `idIndex` (otherwise the insert silently overwrites the
mapping, which the spec leaves to the caller to avoid or accept). -/
inductive StepU : Engine → Engine → Prop
  | insert (e : Engine) (r : Record) (hr : r.deleted = false)
      (hid : e.idIndex.find r.id = none) : StepU e (e.insertRecord r).1
  | delete (e : Engine) (id : Int) :
      StepU e (e.deleteById id).1

/-- An engine call that does not insert a record with id `id`: arbitrary
deletions and insertions of other ids (no liveness assumption on the
inserted record is needed). -/
inductive StepNoIns (id : Int) : Engine → Engine → Prop
  | insert (e : Engine) (r : Record) (hne : r.id ≠ id) :
      StepNoIns id e (e.insertRecord r).1
  | delete (e : Engine) (i : Int) :
      StepNoIns id e (e.deleteById i).1

/-- An engine call that neither deletes id `id` nor inserts a record with
id `id`. -/
inductive StepAvoid (id : Int) : Engine → Engine → Prop
  | insert (e : Engine) (r : Record) (hne : r.id ≠ id) :
      StepAvoid id e (e.insertRecord r).1
  | delete (e : Engine) (i : Int) (hne : i ≠ id) :
      StepAvoid id e (e.deleteById i).1

/-- A state reachable from another by a sequence of engine calls. -/
def Reachable : Engine → Engine → Prop :=
  Relation.ReflTransGen Step

/-- A state reachable by a sequence of engine calls that respect the
unique-id caller responsibility. -/
def ReachableU : Engine → Engine → Prop :=
  Relation.ReflTransGen StepU

/-- The scenario of spec section 8: insert `{id 3, last "Smith"}`, then
`{id 1, last "smith"}`, then `{id 2, last "Jones"}` into the empty
engine. -/
def sample1 : Engine :=
  (Engine.empty.insertRecord ⟨3, ['S','m','i','t','h'], false⟩).1

def sample2 : Engine :=
  (sample1.insertRecord ⟨1, ['s','m','i','t','h'], false⟩).1

def sample3 : Engine :=
  (sample2.insertRecord ⟨2, ['J','o','n','e','s'], false⟩).1

/-- An engine whose `idIndex` holds one in-bounds entry (`0 ↦ 0`) and one
out-of-bounds entry (`5 ↦ 99`), used to exercise the bounds check of
`rangeById`. -/
def sampleOob : Engine :=
  ⟨[⟨0, ['a'], false⟩], .node (.node .nil 0 0 .nil) 5 99 .nil, .nil⟩

/-! ## Ordered-index lemmas -/

theorem BST.All_imp {p q : K → Prop} (h : ∀ k, p k → q k) :
    ∀ {t : BST K V}, t.All p → t.All q := by
  intro t
  induction t with
  | nil => exact fun _ => trivial
  | node l k v r ihl ihr =>
    rintro ⟨hk, hl, hr⟩
    exact ⟨h k hk, ihl hl, ihr hr⟩

theorem BST.All_iff_toList {p : K → Prop} :
    ∀ {t : BST K V}, t.All p ↔ ∀ kv ∈ t.toList, p kv.1 := by
  intro t
  induction t with
  | nil => simp [BST.All, BST.toList]
  | node l k v r ihl ihr =>
    simp only [BST.All, BST.toList, List.mem_append, List.mem_cons, ihl, ihr]
    constructor
    · rintro ⟨hk, hl, hr⟩ kv hkv
      rcases hkv with h1 | h2 | h3
      · exact hl kv h1
      · exact h2 ▸ hk
      · exact hr kv h3
    · intro h
      exact ⟨h (k, v) (Or.inr (Or.inl rfl)),
        fun kv hkv => h kv (Or.inl hkv),
        fun kv hkv => h kv (Or.inr (Or.inr hkv))⟩

theorem BST.toList_node_ne_nil {l : BST K V} {k : K} {v : V} {r : BST K V} :
    (BST.node l k v r).toList ≠ [] := by
  simp [BST.toList]

theorem BST.find_insert_self (t : BST K V) (x : K) (y : V) :
    (t.insert x y).find x = some y := by
  induction t with
  | nil => simp [BST.insert, BST.find, lt_irrefl]
  | node l k v r ihl ihr =>
    by_cases h1 : x < k
    · simp [BST.insert, BST.find, h1, ihl]
    · by_cases h2 : k < x
      · simp [BST.insert, BST.find, h1, h2, ihr]
      · simp [BST.insert, BST.find, h1, h2]

theorem BST.find_insert_ne (t : BST K V) {x z : K} (y : V) (h : z ≠ x) :
    (t.insert x y).find z = t.find z := by
  induction t with
  | nil =>
    rcases lt_or_gt_of_ne h with hlt | hgt
    · simp [BST.insert, BST.find, hlt]
    · simp [BST.insert, BST.find, asymm hgt, hgt]
  | node l k v r ihl ihr =>
    by_cases h1 : x < k
    · simp [BST.insert, BST.find, h1, ihl]
    · by_cases h2 : k < x
      · simp [BST.insert, BST.find, h1, h2, ihr]
      · have hxk : x = k := le_antisymm (not_lt.mp h2) (not_lt.mp h1)
        simp only [BST.insert, if_neg h1, if_neg h2, BST.find]
        by_cases hz1 : z < k
        · simp [hz1]
        · by_cases hz2 : k < z
          · simp [hz1, hz2]
          · have hzk : z = k := le_antisymm (not_lt.mp hz2) (not_lt.mp hz1)
            exact absurd (hzk.trans hxk.symm) h

theorem BST.insert_All {p : K → Prop} {x : K} {y : V} (hx : p x) :
    ∀ {t : BST K V}, t.All p → (t.insert x y).All p := by
  intro t
  induction t with
  | nil => exact fun _ => ⟨hx, trivial, trivial⟩
  | node l k v r ihl ihr =>
    rintro ⟨hk, hl, hr⟩
    by_cases h1 : x < k
    · simpa [BST.insert, h1, BST.All] using ⟨hk, ihl hl, hr⟩
    · by_cases h2 : k < x
      · simpa [BST.insert, h1, h2, BST.All] using ⟨hk, hl, ihr hr⟩
      · simpa [BST.insert, h1, h2, BST.All] using ⟨hk, hl, hr⟩

theorem BST.insert_ordered (x : K) (y : V) :
    ∀ {t : BST K V}, t.Ordered → (t.insert x y).Ordered := by
  intro t
  induction t with
  | nil => exact fun _ => ⟨trivial, trivial, trivial, trivial⟩
  | node l k v r ihl ihr =>
    rintro ⟨hlo, hro, hlk, hrk⟩
    by_cases h1 : x < k
    · simpa [BST.insert, h1, BST.Ordered] using
        ⟨ihl hlo, hro, insert_All (p := fun a => a < k) h1 hlk, hrk⟩
    · by_cases h2 : k < x
      · simpa [BST.insert, h1, h2, BST.Ordered] using
          ⟨hlo, ihr hro, hlk, insert_All (p := fun a => k < a) h2 hrk⟩
      · simpa [BST.insert, h1, h2, BST.Ordered] using ⟨hlo, hro, hlk, hrk⟩

theorem BST.minKV_eq_head : ∀ (t : BST K V), t.minKV = t.toList.head? := by
  intro t
  induction t with
  | nil => rfl
  | node l k v r ihl =>
    simp only [BST.minKV, BST.toList, ihl]
    cases hl : l.toList with
    | nil => simp
    | cons a tl => simp

theorem BST.minKV_mem {t : BST K V} {kv : K × V} (h : t.minKV = some kv) :
    kv ∈ t.toList := by
  rw [minKV_eq_head] at h
  cases ht : t.toList with
  | nil => rw [ht] at h; exact absurd h (by simp)
  | cons a tl =>
    rw [ht] at h
    simp only [List.head?_cons, Option.some.injEq] at h
    exact h ▸ List.mem_cons_self a tl

theorem BST.eraseMin_toList : ∀ (t : BST K V), t.eraseMin.toList = t.toList.tail
  | .nil => rfl
  | .node .nil _ _ _ => by simp [BST.eraseMin, BST.toList]
  | .node (.node a b c d) k v r => by
    have ih := eraseMin_toList (BST.node a b c d)
    show ((BST.node a b c d).eraseMin).toList ++ (k, v) :: r.toList =
      ((BST.node a b c d).toList ++ (k, v) :: r.toList).tail
    rw [ih]
    cases h : (BST.node a b c d).toList with
    | nil => exact absurd h BST.toList_node_ne_nil
    | cons p ps => simp

theorem BST.eraseMin_All {p : K → Prop} :
    ∀ {t : BST K V}, t.All p → t.eraseMin.All p
  | .nil, _ => trivial
  | .node .nil _ _ _, h => h.2.2
  | .node (.node a b c d) _ _ _, h =>
    ⟨h.1, eraseMin_All h.2.1, h.2.2⟩

theorem BST.eraseMin_ordered :
    ∀ {t : BST K V}, t.Ordered → t.eraseMin.Ordered
  | .nil, _ => trivial
  | .node .nil _ _ _, h => h.2.1
  | .node (.node a b c d) _ _ _, h =>
    ⟨eraseMin_ordered h.1, h.2.1, eraseMin_All h.2.2.1, h.2.2.2⟩

theorem BST.toList_pairwise :
    ∀ {t : BST K V}, t.Ordered → t.toList.Pairwise (fun p q => p.1 < q.1) := by
  intro t
  induction t with
  | nil => exact fun _ => List.Pairwise.nil
  | node l k v r ihl ihr =>
    rintro ⟨hlo, hro, hlk, hrk⟩
    simp only [BST.toList]
    rw [List.pairwise_append]
    refine ⟨ihl hlo, ?_, ?_⟩
    · rw [List.pairwise_cons]
      exact ⟨fun q hq => All_iff_toList.mp hrk q hq, ihr hro⟩
    · intro p hp q hq
      have hpk : p.1 < k := All_iff_toList.mp hlk p hp
      rcases List.mem_cons.mp hq with rfl | hq2
      · exact hpk
      · exact hpk.trans (All_iff_toList.mp hrk q hq2)

theorem BST.find_node (l : BST K V) (k : K) (v : V) (r : BST K V) (x : K) :
    (BST.node l k v r).find x =
      if x < k then l.find x else if k < x then r.find x else some v := rfl

theorem BST.find_eq_some_iff :
    ∀ {t : BST K V}, t.Ordered → ∀ {x : K} {v : V},
      (t.find x = some v ↔ (x, v) ∈ t.toList) := by
  intro t
  induction t with
  | nil => intro _ x v; simp [BST.find, BST.toList]
  | node l k w r ihl ihr =>
    rintro ⟨hlo, hro, hlk, hrk⟩ x v
    by_cases h1 : x < k
    · simp only [BST.find, if_pos h1, BST.toList, List.mem_append, List.mem_cons]
      rw [ihl hlo]
      constructor
      · exact fun h => Or.inl h
      · rintro (h | h | h)
        · exact h
        · exact absurd (congrArg Prod.fst h) (ne_of_lt h1)
        · exact absurd (All_iff_toList.mp hrk _ h) (asymm h1)
    · by_cases h2 : k < x
      · simp only [BST.find, if_neg h1, if_pos h2, BST.toList, List.mem_append,
          List.mem_cons]
        rw [ihr hro]
        constructor
        · exact fun h => Or.inr (Or.inr h)
        · rintro (h | h | h)
          · exact absurd (All_iff_toList.mp hlk _ h) h1
          · exact absurd (congrArg Prod.fst h) (ne_of_gt h2)
          · exact h
      · have hxk : x = k := le_antisymm (not_lt.mp h2) (not_lt.mp h1)
        subst hxk
        simp only [BST.find, if_neg h1, if_neg h2, BST.toList, List.mem_append,
          List.mem_cons, Option.some.injEq]
        constructor
        · intro h; exact Or.inr (Or.inl (by rw [h]))
        · rintro (h | h | h)
          · exact absurd (All_iff_toList.mp hlk _ h) (lt_irrefl x)
          · exact (congrArg Prod.snd h).symm
          · exact absurd (All_iff_toList.mp hrk _ h) (lt_irrefl x)

theorem BST.find_eq_none_iff {t : BST K V} (ht : t.Ordered) {x : K} :
    t.find x = none ↔ ∀ v : V, (x, v) ∉ t.toList := by
  constructor
  · intro h v hv
    rw [← find_eq_some_iff ht] at hv
    rw [h] at hv
    exact Option.noConfusion hv
  · intro h
    cases hf : t.find x with
    | none => rfl
    | some w => exact absurd ((find_eq_some_iff ht).mp hf) (h w)

theorem BST.toList_eq_min_cons {t : BST K V} {m : K × V} (h : t.minKV = some m) :
    t.toList = m :: t.eraseMin.toList := by
  rw [eraseMin_toList]
  rw [minKV_eq_head] at h
  cases ht : t.toList with
  | nil => rw [ht] at h; exact absurd h (by simp)
  | cons p ps =>
    rw [ht] at h
    simp only [List.head?_cons, Option.some.injEq] at h
    simp [h]

theorem BST.minKV_le {t : BST K V} (ht : t.Ordered) {m : K × V}
    (h : t.minKV = some m) : t.All (fun a => m.1 ≤ a) := by
  rw [All_iff_toList]
  intro kv hkv
  have hp := toList_pairwise ht
  rw [toList_eq_min_cons h, List.pairwise_cons] at hp
  rw [toList_eq_min_cons h] at hkv
  rcases List.mem_cons.mp hkv with rfl | hkv2
  · exact le_rfl
  · exact le_of_lt (hp.1 kv hkv2)

theorem BST.eraseMin_all_gt {t : BST K V} (ht : t.Ordered) {m : K × V}
    (h : t.minKV = some m) : t.eraseMin.All (fun a => m.1 < a) := by
  rw [All_iff_toList]
  intro kv hkv
  have hp := toList_pairwise ht
  rw [toList_eq_min_cons h, List.pairwise_cons] at hp
  exact hp.1 kv hkv

theorem BST.erase_All {p : K → Prop} :
    ∀ {t : BST K V}, t.All p → ∀ x : K, (t.erase x).All p := by
  intro t
  induction t with
  | nil => intro _ x; trivial
  | node l k v r ihl ihr =>
    rintro ⟨hk, hl, hr⟩ x
    by_cases h1 : x < k
    · simp only [BST.erase, if_pos h1]
      exact ⟨hk, ihl hl x, hr⟩
    · by_cases h2 : k < x
      · simp only [BST.erase, if_neg h1, if_pos h2]
        exact ⟨hk, hl, ihr hr x⟩
      · simp only [BST.erase, if_neg h1, if_neg h2]
        cases l with
        | nil =>
          cases r with
          | nil => trivial
          | node ra rb rc rd => exact hr
        | node la lb lc ld =>
          cases r with
          | nil => exact hl
          | node ra rb rc rd =>
            have hmin : (BST.node ra rb rc rd).minKV =
                some (((BST.node ra rb rc rd).minKV).getD (k, v)) := rfl
            exact ⟨All_iff_toList.mp hr _ (minKV_mem hmin), hl, eraseMin_All hr⟩

theorem BST.erase_ordered :
    ∀ {t : BST K V}, t.Ordered → ∀ x : K, (t.erase x).Ordered := by
  intro t
  induction t with
  | nil => intro _ x; trivial
  | node l k v r ihl ihr =>
    rintro ⟨hlo, hro, hlk, hrk⟩ x
    by_cases h1 : x < k
    · simp only [BST.erase, if_pos h1]
      exact ⟨ihl hlo x, hro, erase_All hlk x, hrk⟩
    · by_cases h2 : k < x
      · simp only [BST.erase, if_neg h1, if_pos h2]
        exact ⟨hlo, ihr hro x, hlk, erase_All hrk x⟩
      · simp only [BST.erase, if_neg h1, if_neg h2]
        cases l with
        | nil =>
          cases r with
          | nil => trivial
          | node ra rb rc rd => exact hro
        | node la lb lc ld =>
          cases r with
          | nil => exact hlo
          | node ra rb rc rd =>
            have hmin : (BST.node ra rb rc rd).minKV =
                some (((BST.node ra rb rc rd).minKV).getD (k, v)) := rfl
            have hkm : k < (((BST.node ra rb rc rd).minKV).getD (k, v)).1 :=
              All_iff_toList.mp hrk _ (minKV_mem hmin)
            refine ⟨hlo, eraseMin_ordered hro, ?_, eraseMin_all_gt hro hmin⟩
            exact All_imp (fun a ha => ha.trans hkm) hlk

theorem BST.find_erase_self :
    ∀ {t : BST K V}, t.Ordered → ∀ x : K, (t.erase x).find x = none := by
  intro t
  induction t with
  | nil => intro _ x; rfl
  | node l k v r ihl ihr =>
    rintro ⟨hlo, hro, hlk, hrk⟩ x
    by_cases h1 : x < k
    · simp only [BST.erase, if_pos h1, BST.find]
      exact ihl hlo x
    · by_cases h2 : k < x
      · simp only [BST.erase, if_neg h1, if_pos h2, BST.find]
        exact ihr hro x
      · have hxk : x = k := le_antisymm (not_lt.mp h2) (not_lt.mp h1)
        subst hxk
        simp only [BST.erase, if_neg h1, if_neg h2]
        cases l with
        | nil =>
          cases r with
          | nil => rfl
          | node ra rb rc rd =>
            rw [find_eq_none_iff hro]
            intro w hw
            exact absurd (All_iff_toList.mp hrk _ hw) (lt_irrefl x)
        | node la lb lc ld =>
          cases r with
          | nil =>
            rw [find_eq_none_iff hlo]
            intro w hw
            exact absurd (All_iff_toList.mp hlk _ hw) (lt_irrefl x)
          | node ra rb rc rd =>
            have hmin : (BST.node ra rb rc rd).minKV =
                some (((BST.node ra rb rc rd).minKV).getD (x, v)) := rfl
            have hxm : x < (((BST.node ra rb rc rd).minKV).getD (x, v)).1 :=
              All_iff_toList.mp hrk _ (minKV_mem hmin)
            rw [BST.find_node, if_pos hxm, find_eq_none_iff hlo]
            intro w hw
            exact absurd (All_iff_toList.mp hlk _ hw) (lt_irrefl x)

theorem BST.find_eraseMin {t : BST K V} (ht : t.Ordered) {m : K × V}
    (hm : t.minKV = some m) {z : K} (hz : z ≠ m.1) :
    t.eraseMin.find z = t.find z := by
  have hte := eraseMin_ordered ht
  cases hf : t.find z with
  | none =>
    rw [find_eq_none_iff ht] at hf
    rw [find_eq_none_iff hte]
    intro w hw
    apply hf w
    rw [toList_eq_min_cons hm]
    exact List.mem_cons_of_mem m hw
  | some w =>
    rw [find_eq_some_iff hte]
    have hmem := (find_eq_some_iff ht).mp hf
    rw [toList_eq_min_cons hm] at hmem
    rcases List.mem_cons.mp hmem with heq | h2
    · exact absurd (congrArg Prod.fst heq) hz
    · exact h2

theorem BST.find_erase_ne :
    ∀ {t : BST K V}, t.Ordered → ∀ {x z : K}, z ≠ x → (t.erase x).find z = t.find z := by
  intro t
  induction t with
  | nil => intro _ x z _; rfl
  | node l k v r ihl ihr =>
    rintro ⟨hlo, hro, hlk, hrk⟩ x z hzx
    by_cases h1 : x < k
    · simp only [BST.erase, if_pos h1, BST.find, ihl hlo hzx]
    · by_cases h2 : k < x
      · simp only [BST.erase, if_neg h1, if_pos h2, BST.find, ihr hro hzx]
      · have hxk : x = k := le_antisymm (not_lt.mp h2) (not_lt.mp h1)
        subst hxk
        simp only [BST.erase, if_neg h1, if_neg h2]
        cases l with
        | nil =>
          cases r with
          | nil =>
            conv_rhs => rw [BST.find_node]
            by_cases hz1 : z < x
            · rw [if_pos hz1]
            · by_cases hz2 : x < z
              · rw [if_neg hz1, if_pos hz2]
              · exact absurd (le_antisymm (not_lt.mp hz2) (not_lt.mp hz1)) hzx
          | node ra rb rc rd =>
            conv_rhs => rw [BST.find_node]
            by_cases hz1 : z < x
            · rw [if_pos hz1]
              show (BST.node ra rb rc rd).find z = none
              rw [find_eq_none_iff hro]
              intro w hw
              have := All_iff_toList.mp hrk _ hw
              exact absurd (hz1.trans this) (lt_irrefl z)
            · by_cases hz2 : x < z
              · rw [if_neg hz1, if_pos hz2]
              · exact absurd (le_antisymm (not_lt.mp hz2) (not_lt.mp hz1)) hzx
        | node la lb lc ld =>
          cases r with
          | nil =>
            conv_rhs => rw [BST.find_node]
            by_cases hz1 : z < x
            · rw [if_pos hz1]
            · by_cases hz2 : x < z
              · rw [if_neg hz1, if_pos hz2]
                show (BST.node la lb lc ld).find z = none
                rw [find_eq_none_iff hlo]
                intro w hw
                have := All_iff_toList.mp hlk _ hw
                exact absurd (this.trans hz2) (lt_irrefl z)
              · exact absurd (le_antisymm (not_lt.mp hz2) (not_lt.mp hz1)) hzx
          | node ra rb rc rd =>
            conv_lhs => rw [BST.find_node]
            conv_rhs => rw [BST.find_node]
            have hmin : (BST.node ra rb rc rd).minKV =
                some (((BST.node ra rb rc rd).minKV).getD (x, v)) := rfl
            have hxm : x < (((BST.node ra rb rc rd).minKV).getD (x, v)).1 :=
              All_iff_toList.mp hrk _ (minKV_mem hmin)
            have hmle := minKV_le hro hmin
            by_cases hz1 : z < x
            · rw [if_pos (hz1.trans hxm), if_pos hz1]
            · by_cases hz2 : x < z
              · rw [if_neg hz1, if_pos hz2]
                by_cases hzm1 : z < (((BST.node ra rb rc rd).minKV).getD (x, v)).1
                · rw [if_pos hzm1]
                  have hlnone : (BST.node la lb lc ld).find z = none := by
                    rw [find_eq_none_iff hlo]
                    intro w hw
                    have := All_iff_toList.mp hlk _ hw
                    exact absurd (this.trans hz2) (lt_irrefl z)
                  have hrnone : (BST.node ra rb rc rd).find z = none := by
                    rw [find_eq_none_iff hro]
                    intro w hw
                    have := All_iff_toList.mp hmle _ hw
                    exact absurd (lt_of_lt_of_le hzm1 this) (lt_irrefl z)
                  rw [hlnone, hrnone]
                · by_cases hzm2 : (((BST.node ra rb rc rd).minKV).getD (x, v)).1 < z
                  · rw [if_neg hzm1, if_pos hzm2]
                    exact find_eraseMin hro hmin (ne_of_gt hzm2)
                  · have hzm : z = (((BST.node ra rb rc rd).minKV).getD (x, v)).1 :=
                      le_antisymm (not_lt.mp hzm2) (not_lt.mp hzm1)
                    have hfm : (BST.node ra rb rc rd).find
                        (((BST.node ra rb rc rd).minKV).getD (x, v)).1 =
                        some (((BST.node ra rb rc rd).minKV).getD (x, v)).2 :=
                      (find_eq_some_iff hro).mpr (by simpa using minKV_mem hmin)
                    rw [if_neg hzm1, if_neg hzm2, hzm, hfm]
              · exact absurd (le_antisymm (not_lt.mp hz2) (not_lt.mp hz1)) hzx

theorem BST.rangeApply_subset :
    ∀ {t : BST K V} {lo hi : K} {p : K × V},
      p ∈ t.rangeApply lo hi → p ∈ t.toList := by
  intro t
  induction t with
  | nil => intro lo hi p h; exact absurd h (List.not_mem_nil p)
  | node l k v r ihl ihr =>
    intro lo hi p h
    simp only [BST.rangeApply, List.mem_append] at h
    simp only [BST.toList, List.mem_append, List.mem_cons]
    rcases h with (h | h) | h
    · by_cases hc : lo < k
      · rw [if_pos hc] at h
        exact Or.inl (ihl h)
      · rw [if_neg hc] at h
        exact absurd h (List.not_mem_nil p)
    · by_cases hc : lo ≤ k ∧ k ≤ hi
      · rw [if_pos hc] at h
        exact Or.inr (Or.inl (List.mem_singleton.mp h))
      · rw [if_neg hc] at h
        exact absurd h (List.not_mem_nil p)
    · by_cases hc : k < hi
      · rw [if_pos hc] at h
        exact Or.inr (Or.inr (ihr h))
      · rw [if_neg hc] at h
        exact absurd h (List.not_mem_nil p)

theorem BST.mem_rangeApply :
    ∀ {t : BST K V}, t.Ordered → ∀ {lo hi : K} {p : K × V},
      (p ∈ t.rangeApply lo hi ↔ p ∈ t.toList ∧ lo ≤ p.1 ∧ p.1 ≤ hi) := by
  intro t
  induction t with
  | nil => intro _ lo hi p; simp [BST.rangeApply, BST.toList]
  | node l k v r ihl ihr =>
    rintro ⟨hlo, hro, hlk, hrk⟩ lo hi p
    constructor
    · intro h
      refine ⟨rangeApply_subset h, ?_⟩
      simp only [BST.rangeApply, List.mem_append] at h
      rcases h with (h | h) | h
      · by_cases hc : lo < k
        · rw [if_pos hc] at h
          exact ((ihl hlo).mp h).2
        · rw [if_neg hc] at h
          exact absurd h (List.not_mem_nil p)
      · by_cases hc : lo ≤ k ∧ k ≤ hi
        · rw [if_pos hc] at h
          rw [List.mem_singleton.mp h]
          exact hc
        · rw [if_neg hc] at h
          exact absurd h (List.not_mem_nil p)
      · by_cases hc : k < hi
        · rw [if_pos hc] at h
          exact ((ihr hro).mp h).2
        · rw [if_neg hc] at h
          exact absurd h (List.not_mem_nil p)
    · rintro ⟨hmem, hplo, hphi⟩
      simp only [BST.toList, List.mem_append, List.mem_cons] at hmem
      simp only [BST.rangeApply, List.mem_append]
      rcases hmem with h | h | h
      · have hpk : p.1 < k := All_iff_toList.mp hlk p h
        refine Or.inl (Or.inl ?_)
        rw [if_pos (lt_of_le_of_lt hplo hpk)]
        exact (ihl hlo).mpr ⟨h, hplo, hphi⟩
      · subst h
        refine Or.inl (Or.inr ?_)
        rw [if_pos ⟨hplo, hphi⟩]
        exact List.mem_singleton.mpr rfl
      · have hpk : k < p.1 := All_iff_toList.mp hrk p h
        refine Or.inr ?_
        rw [if_pos (lt_of_lt_of_le hpk hphi)]
        exact (ihr hro).mpr ⟨h, hplo, hphi⟩

theorem BST.rangeApply_pairwise :
    ∀ {t : BST K V}, t.Ordered → ∀ lo hi : K,
      (t.rangeApply lo hi).Pairwise (fun p q => p.1 < q.1) := by
  intro t
  induction t with
  | nil => intro _ lo hi; exact List.Pairwise.nil
  | node l k v r ihl ihr =>
    rintro ⟨hlo, hro, hlk, hrk⟩ lo hi
    simp only [BST.rangeApply]
    have hmemA : ∀ p ∈ (if lo < k then l.rangeApply lo hi else []), p.1 < k := by
      intro p hp
      by_cases hc : lo < k
      · rw [if_pos hc] at hp
        exact All_iff_toList.mp hlk p (rangeApply_subset hp)
      · rw [if_neg hc] at hp
        exact absurd hp (List.not_mem_nil p)
    have hmemC : ∀ p ∈ (if k < hi then r.rangeApply lo hi else []), k < p.1 := by
      intro p hp
      by_cases hc : k < hi
      · rw [if_pos hc] at hp
        exact All_iff_toList.mp hrk p (rangeApply_subset hp)
      · rw [if_neg hc] at hp
        exact absurd hp (List.not_mem_nil p)
    have hmemB : ∀ p ∈ (if lo ≤ k ∧ k ≤ hi then [(k, v)] else []), p = (k, v) := by
      intro p hp
      by_cases hc : lo ≤ k ∧ k ≤ hi
      · rw [if_pos hc] at hp
        exact List.mem_singleton.mp hp
      · rw [if_neg hc] at hp
        exact absurd hp (List.not_mem_nil p)
    have hA : (if lo < k then l.rangeApply lo hi else []).Pairwise
        (fun p q => p.1 < q.1) := by
      by_cases hc : lo < k
      · rw [if_pos hc]; exact ihl hlo lo hi
      · rw [if_neg hc]; exact List.Pairwise.nil
    have hC : (if k < hi then r.rangeApply lo hi else []).Pairwise
        (fun p q => p.1 < q.1) := by
      by_cases hc : k < hi
      · rw [if_pos hc]; exact ihr hro lo hi
      · rw [if_neg hc]; exact List.Pairwise.nil
    have hB : (if lo ≤ k ∧ k ≤ hi then [(k, v)] else []).Pairwise
        (fun p q => p.1 < q.1) := by
      by_cases hc : lo ≤ k ∧ k ≤ hi
      · rw [if_pos hc]; exact List.pairwise_singleton _ _
      · rw [if_neg hc]; exact List.Pairwise.nil
    rw [List.pairwise_append]
    refine ⟨?_, hC, ?_⟩
    · rw [List.pairwise_append]
      refine ⟨hA, hB, ?_⟩
      intro a ha b hb
      rw [hmemB b hb]
      exact hmemA a ha
    · intro a ha c hc
      rcases List.mem_append.mp ha with ha2 | ha2
      · exact (hmemA a ha2).trans (hmemC c hc)
      · rw [hmemB a ha2]
        exact hmemC c hc

/-! ## Heap lemmas -/

theorem setDeleted_length : ∀ (heap : List Record) (rid : Int),
    (setDeleted heap rid).length = heap.length := by
  intro heap
  induction heap with
  | nil => intro rid; rfl
  | cons r rest ih =>
    intro rid
    by_cases h : rid = 0
    · simp [setDeleted, h]
    · simp [setDeleted, h, ih]

theorem setDeleted_getElem : ∀ (heap : List Record) (rid : Int) (j : Nat),
    (setDeleted heap rid)[j]? =
      if (j : Int) = rid then (heap[j]?).map (fun r => { r with deleted := true })
      else heap[j]? := by
  intro heap
  induction heap with
  | nil => intro rid j; simp [setDeleted]
  | cons r rest ih =>
    intro rid j
    by_cases h0 : rid = 0
    · subst h0
      cases j with
      | zero => simp [setDeleted]
      | succ n =>
        have hne : ((n + 1 : Nat) : Int) ≠ 0 := by omega
        have hsd : setDeleted (r :: rest) 0 = { r with deleted := true } :: rest := by
          simp [setDeleted]
        rw [hsd, List.getElem?_cons_succ, if_neg hne]
        simp
    · cases j with
      | zero =>
        have hne : ((0 : Nat) : Int) ≠ rid := by
          intro hc
          exact h0 (by omega)
        have hsd : setDeleted (r :: rest) rid = r :: setDeleted rest (rid - 1) := by
          simp [setDeleted, h0]
        rw [hsd, List.getElem?_cons_zero, List.getElem?_cons_zero, if_neg hne]
      | succ n =>
        simp only [setDeleted, if_neg h0, List.getElem?_cons_succ]
        rw [ih (rid - 1) n]
        by_cases hc : (n : Int) = rid - 1
        · rw [if_pos hc, if_pos (by omega)]
        · rw [if_neg hc, if_neg (by omega)]

theorem heapGetD_nonneg (heap : List Record) (rid : Int) (h : 0 ≤ rid) :
    heapGetD heap rid = (heap[rid.toNat]?).getD default := by
  unfold heapGetD
  rw [if_pos h, List.getD_eq_getElem?_getD]

theorem heapGetD_ofNat (heap : List Record) (n : Nat) :
    heapGetD heap (n : Int) = (heap[n]?).getD default := by
  rw [heapGetD_nonneg heap _ (by positivity), Int.toNat_natCast]

theorem heapGetD_append_self (heap : List Record) (r : Record) :
    heapGetD (heap ++ [r]) (heap.length : Int) = r := by
  rw [heapGetD_ofNat, List.getElem?_concat_length]
  rfl

theorem heapGetD_append_of_lt (heap tail : List Record) (rid : Int)
    (h1 : rid.toNat < heap.length) :
    heapGetD (heap ++ tail) rid = heapGetD heap rid := by
  unfold heapGetD
  by_cases h0 : 0 ≤ rid
  · rw [if_pos h0, if_pos h0, List.getD_eq_getElem?_getD, List.getD_eq_getElem?_getD,
      List.getElem?_append_left h1]
  · rw [if_neg h0, if_neg h0]

theorem heapGetD_setDeleted_ne (heap : List Record) (rid x : Int) (h : x ≠ rid) :
    heapGetD (setDeleted heap rid) x = heapGetD heap x := by
  unfold heapGetD
  by_cases h0 : 0 ≤ x
  · rw [if_pos h0, if_pos h0, List.getD_eq_getElem?_getD, List.getD_eq_getElem?_getD,
      setDeleted_getElem]
    rw [if_neg (by omega)]
  · rw [if_neg h0, if_neg h0]

theorem heapGetD_setDeleted_self (heap : List Record) (rid : Int)
    (h0 : 0 ≤ rid) (h1 : rid.toNat < heap.length) :
    heapGetD (setDeleted heap rid) rid = { heapGetD heap rid with deleted := true } := by
  rw [heapGetD_nonneg _ _ h0, heapGetD_nonneg _ _ h0, setDeleted_getElem,
    if_pos (by omega)]
  cases hx : heap[rid.toNat]? with
  | none =>
    rw [List.getElem?_eq_getElem h1] at hx
    exact Option.noConfusion hx
  | some w => rfl

theorem heapGetD_setDeleted_deleted (heap : List Record) (rid x : Int)
    (h : (heapGetD heap x).deleted = true) :
    (heapGetD (setDeleted heap rid) x).deleted = true := by
  by_cases hx : x = rid
  · subst hx
    by_cases h0 : 0 ≤ x
    · by_cases h1 : x.toNat < heap.length
      · rw [heapGetD_setDeleted_self heap x h0 h1]
      · rw [heapGetD_nonneg _ _ h0] at h ⊢
        rw [setDeleted_getElem, if_pos (by omega)]
        cases hg : heap[x.toNat]? with
        | none => rw [hg] at h; exact absurd h (by decide)
        | some w =>
          rw [List.getElem?_eq_none (by omega)] at hg
          exact Option.noConfusion hg
    · unfold heapGetD at h ⊢
      rw [if_neg h0] at h ⊢
      exact h
  · rw [heapGetD_setDeleted_ne heap rid x hx]
    exact h

theorem heapGetD_setDeleted_id (heap : List Record) (rid x : Int) :
    (heapGetD (setDeleted heap rid) x).id = (heapGetD heap x).id := by
  by_cases hx : x = rid
  · subst hx
    by_cases h0 : 0 ≤ x
    · rw [heapGetD_nonneg _ _ h0, heapGetD_nonneg _ _ h0, setDeleted_getElem,
        if_pos (by omega)]
      cases hg : heap[x.toNat]? with
      | none => rfl
      | some w => rfl
    · unfold heapGetD
      rw [if_neg h0, if_neg h0]
  · rw [heapGetD_setDeleted_ne heap rid x hx]

/-! ## Engine operation unfolding lemmas -/

theorem insertRecord_heap (e : Engine) (r : Record) :
    (e.insertRecord r).1.heap = e.heap ++ [r] := rfl

theorem insertRecord_idIndex (e : Engine) (r : Record) :
    (e.insertRecord r).1.idIndex = e.idIndex.insert r.id (e.heap.length : Int) := rfl

theorem insertRecord_ret (e : Engine) (r : Record) :
    (e.insertRecord r).2 = none := rfl

theorem deleteById_of_find_none {e : Engine} {id : Int}
    (h : e.idIndex.find id = none) : e.deleteById id = (e, some false) := by
  unfold Engine.deleteById
  rw [h]

theorem deleteById_heap_of_find_some {e : Engine} {id rid : Int}
    (h : e.idIndex.find id = some rid) :
    (e.deleteById id).1.heap = setDeleted e.heap rid := by
  unfold Engine.deleteById
  rw [h]

theorem deleteById_idIndex_of_find_some {e : Engine} {id rid : Int}
    (h : e.idIndex.find id = some rid) :
    (e.deleteById id).1.idIndex = e.idIndex.erase id := by
  unfold Engine.deleteById
  rw [h]

theorem deleteById_ret_of_find_some {e : Engine} {id rid : Int}
    (h : e.idIndex.find id = some rid) :
    (e.deleteById id).2 = none := by
  unfold Engine.deleteById
  rw [h]

theorem findById_of_find_none {e : Engine} {id : Int}
    (h : e.idIndex.find id = none) : e.findById id = none := by
  unfold Engine.findById
  rw [h]

theorem findById_of_find_some {e : Engine} {id rid : Int}
    (h : e.idIndex.find id = some rid) :
    e.findById id =
      if (heapGetD e.heap rid).deleted = true then none
      else some (heapGetD e.heap rid) := by
  unfold Engine.findById
  rw [h]

theorem mem_rangeById {e : Engine} {lo hi rid : Int} :
    rid ∈ e.rangeById lo hi ↔
      ∃ k : Int, (k, rid) ∈ e.idIndex.rangeApply lo hi ∧ 0 ≤ rid ∧
        rid < (e.heap.length : Int) ∧ (heapGetD e.heap rid).deleted = false := by
  unfold Engine.rangeById
  rw [List.mem_filterMap]
  constructor
  · rintro ⟨kv, hkv, hsome⟩
    by_cases hc : 0 ≤ kv.2 ∧ kv.2 < (e.heap.length : Int) ∧
        (heapGetD e.heap kv.2).deleted = false
    · rw [if_pos hc] at hsome
      have hr : kv.2 = rid := Option.some.inj hsome
      refine ⟨kv.1, ?_, hr ▸ hc.1, hr ▸ hc.2.1, hr ▸ hc.2.2⟩
      rw [← hr, Prod.mk.eta]
      exact hkv
    · rw [if_neg hc] at hsome
      exact absurd hsome (by simp)
  · rintro ⟨k, hkv, h0, h1, h2⟩
    exact ⟨(k, rid), hkv, by rw [if_pos ⟨h0, h1, h2⟩]⟩

/-! ## Invariant preservation -/

theorem insertRecord_ordered_pointsTo {e : Engine}
    (h : e.idIndex.Ordered ∧ IdxPointsTo e) (r : Record) :
    (e.insertRecord r).1.idIndex.Ordered ∧ IdxPointsTo (e.insertRecord r).1 := by
  obtain ⟨hord, hpt⟩ := h
  constructor
  · rw [insertRecord_idIndex]
    exact BST.insert_ordered _ _ hord
  · intro k rid hfind
    rw [insertRecord_idIndex] at hfind
    by_cases hk : k = r.id
    · subst hk
      rw [BST.find_insert_self] at hfind
      have hrid := (Option.some.inj hfind).symm
      subst hrid
      refine ⟨by positivity, ?_, ?_⟩
      · rw [insertRecord_heap, Int.toNat_natCast, List.length_append]
        simp
      · rw [insertRecord_heap, heapGetD_append_self]
    · rw [BST.find_insert_ne _ _ hk] at hfind
      obtain ⟨h0, h1, h2⟩ := hpt k rid hfind
      refine ⟨h0, ?_, ?_⟩
      · rw [insertRecord_heap, List.length_append]
        omega
      · rw [insertRecord_heap, heapGetD_append_of_lt _ _ _ h1, h2]

theorem deleteById_ordered_pointsTo {e : Engine}
    (h : e.idIndex.Ordered ∧ IdxPointsTo e) (id : Int) :
    (e.deleteById id).1.idIndex.Ordered ∧ IdxPointsTo (e.deleteById id).1 := by
  obtain ⟨hord, hpt⟩ := h
  cases hf : e.idIndex.find id with
  | none => rw [deleteById_of_find_none hf]; exact ⟨hord, hpt⟩
  | some rid =>
    constructor
    · rw [deleteById_idIndex_of_find_some hf]
      exact BST.erase_ordered hord id
    · intro k rid2 hfind
      rw [deleteById_idIndex_of_find_some hf] at hfind
      by_cases hk : k = id
      · subst hk
        rw [BST.find_erase_self hord] at hfind
        exact Option.noConfusion hfind
      · rw [BST.find_erase_ne hord hk] at hfind
        obtain ⟨h0, h1, h2⟩ := hpt k rid2 hfind
        rw [deleteById_heap_of_find_some hf]
        refine ⟨h0, by rw [setDeleted_length]; exact h1, ?_⟩
        rw [heapGetD_setDeleted_id, h2]

theorem insertRecord_invId {e : Engine} (h : EngineInvId e) {r : Record}
    (hr : r.deleted = false) : EngineInvId (e.insertRecord r).1 := by
  obtain ⟨hord, hpt, hlive⟩ := h
  obtain ⟨hord2, hpt2⟩ := insertRecord_ordered_pointsTo ⟨hord, hpt⟩ r
  refine ⟨hord2, hpt2, ?_⟩
  intro k rid hfind
  rw [insertRecord_idIndex] at hfind
  by_cases hk : k = r.id
  · subst hk
    rw [BST.find_insert_self] at hfind
    have hrid := (Option.some.inj hfind).symm
    subst hrid
    rw [insertRecord_heap, heapGetD_append_self, hr]
  · rw [BST.find_insert_ne _ _ hk] at hfind
    obtain ⟨h0, h1, _⟩ := hpt k rid hfind
    rw [insertRecord_heap, heapGetD_append_of_lt _ _ _ h1]
    exact hlive k rid hfind

theorem deleteById_invId {e : Engine} (h : EngineInvId e) (id : Int) :
    EngineInvId (e.deleteById id).1 := by
  obtain ⟨hord, hpt, hlive⟩ := h
  obtain ⟨hord2, hpt2⟩ := deleteById_ordered_pointsTo ⟨hord, hpt⟩ id
  refine ⟨hord2, hpt2, ?_⟩
  cases hf : e.idIndex.find id with
  | none =>
    rw [deleteById_of_find_none hf]
    exact hlive
  | some rid =>
    intro k rid2 hfind
    rw [deleteById_idIndex_of_find_some hf] at hfind
    by_cases hk : k = id
    · subst hk
      rw [BST.find_erase_self hord] at hfind
      exact Option.noConfusion hfind
    · rw [BST.find_erase_ne hord hk] at hfind
      rw [deleteById_heap_of_find_some hf]
      have hne : rid2 ≠ rid := by
        intro hcc
        subst hcc
        obtain ⟨_, _, hid2⟩ := hpt k rid2 hfind
        obtain ⟨_, _, hid⟩ := hpt id rid2 hf
        exact hk (hid2.symm.trans hid)
      rw [heapGetD_setDeleted_ne _ _ _ hne]
      exact hlive k rid2 hfind

theorem insertRecord_complete {e : Engine} (hinv : EngineInv e) {r : Record}
    (hid : e.idIndex.find r.id = none) :
    IdxComplete (e.insertRecord r).1 := by
  obtain ⟨⟨hord, hpt, hlive⟩, hcomp⟩ := hinv
  intro n hn hlive2
  rw [insertRecord_heap, List.length_append] at hn
  rw [insertRecord_idIndex]
  by_cases hcase : n = e.heap.length
  · subst hcase
    rw [insertRecord_heap, heapGetD_append_self] at hlive2 ⊢
    rw [BST.find_insert_self]
  · have hlt : n < e.heap.length := by simp at hn; omega
    have hup : heapGetD (e.insertRecord r).1.heap (n : Int) = heapGetD e.heap (n : Int) := by
      rw [insertRecord_heap]
      exact heapGetD_append_of_lt _ _ _ (by rw [Int.toNat_natCast]; exact hlt)
    rw [hup] at hlive2 ⊢
    have hfind := hcomp n hlt hlive2
    have hkne : (heapGetD e.heap (n : Int)).id ≠ r.id := by
      intro hcc
      rw [hcc, hid] at hfind
      exact Option.noConfusion hfind
    rw [BST.find_insert_ne _ _ hkne]
    exact hfind

theorem deleteById_complete {e : Engine} (hinv : EngineInv e) (id : Int) :
    IdxComplete (e.deleteById id).1 := by
  obtain ⟨⟨hord, hpt, hlive⟩, hcomp⟩ := hinv
  cases hf : e.idIndex.find id with
  | none =>
    rw [deleteById_of_find_none hf]
    exact hcomp
  | some rid =>
    intro n hn hlive2
    rw [deleteById_heap_of_find_some hf, setDeleted_length] at hn
    have hne : (n : Int) ≠ rid := by
      intro hcc
      obtain ⟨h0, h1, _⟩ := hpt id rid hf
      have hdel : (heapGetD (e.deleteById id).1.heap (n : Int)).deleted = true := by
        rw [deleteById_heap_of_find_some hf, hcc, heapGetD_setDeleted_self _ _ h0 h1]
      rw [hdel] at hlive2
      exact Bool.noConfusion hlive2
    have hh : heapGetD (e.deleteById id).1.heap (n : Int) = heapGetD e.heap (n : Int) := by
      rw [deleteById_heap_of_find_some hf]
      exact heapGetD_setDeleted_ne _ _ _ hne
    rw [hh] at hlive2 ⊢
    have hfind := hcomp n hn hlive2
    have hkne : (heapGetD e.heap (n : Int)).id ≠ id := by
      intro hcc
      rw [hcc] at hfind
      exact hne (Option.some.inj (hf.symm.trans hfind)).symm
    rw [deleteById_idIndex_of_find_some hf, BST.find_erase_ne hord hkne]
    exact hfind

theorem reachable_invId {e e' : Engine} (hre : Reachable e e') (h : EngineInvId e) :
    EngineInvId e' := by
  induction hre with
  | refl => exact h
  | tail hab hstep ih =>
    cases hstep with
    | insert r hr => exact insertRecord_invId ih hr
    | delete id => exact deleteById_invId ih id

theorem reachableU_inv {e e' : Engine} (hre : ReachableU e e') (h : EngineInv e) :
    EngineInv e' := by
  induction hre with
  | refl => exact h
  | tail hab hstep ih =>
    cases hstep with
    | insert r hr hid =>
      exact ⟨insertRecord_invId ih.1 hr, insertRecord_complete ih hid⟩
    | delete id =>
      exact ⟨deleteById_invId ih.1 id, deleteById_complete ih id⟩

theorem empty_inv : EngineInv Engine.empty := by
  refine ⟨⟨trivial, ?_, ?_⟩, ?_⟩
  · intro k rid h
    exact Option.noConfusion h
  · intro k rid h
    exact Option.noConfusion h
  · intro n hn _
    exact absurd hn (Nat.not_lt_zero n)

/-- After a soft delete, the deleted RID stays in bounds and stays
deleted, and the deleted id stays absent from `idIndex`, along any
sequence of calls that does not insert a record with that id. -/
theorem stepNoIns_preserve {id rid : Int} {e e' : Engine}
    (htr : Relation.ReflTransGen (StepNoIns id) e e')
    (h : e.idIndex.Ordered ∧ e.idIndex.find id = none ∧
      rid.toNat < e.heap.length ∧ (heapGetD e.heap rid).deleted = true) :
    e'.idIndex.Ordered ∧ e'.idIndex.find id = none ∧
      rid.toNat < e'.heap.length ∧ (heapGetD e'.heap rid).deleted = true := by
  induction htr with
  | refl => exact h
  | tail hab hstep ih =>
    obtain ⟨hord, hfind, hlen, hdel⟩ := ih
    cases hstep with
    | insert r hne =>
      refine ⟨?_, ?_, ?_, ?_⟩
      · rw [insertRecord_idIndex]
        exact BST.insert_ordered _ _ hord
      · rw [insertRecord_idIndex, BST.find_insert_ne _ _ (Ne.symm hne)]
        exact hfind
      · rw [insertRecord_heap, List.length_append]
        omega
      · rw [insertRecord_heap, heapGetD_append_of_lt _ _ _ hlen]
        exact hdel
    | delete i =>
      rename_i e2
      cases hf : e2.idIndex.find i with
      | none =>
        rw [deleteById_of_find_none hf]
        exact ⟨hord, hfind, hlen, hdel⟩
      | some rid2 =>
        refine ⟨?_, ?_, ?_, ?_⟩
        · rw [deleteById_idIndex_of_find_some hf]
          exact BST.erase_ordered hord i
        · rw [deleteById_idIndex_of_find_some hf]
          by_cases hik : id = i
          · subst hik
            rw [BST.find_erase_self hord]
          · rw [BST.find_erase_ne hord hik]
            exact hfind
        · rw [deleteById_heap_of_find_some hf, setDeleted_length]
          exact hlen
        · rw [deleteById_heap_of_find_some hf]
          exact heapGetD_setDeleted_deleted _ _ _ hdel

/-- A record found under its id stays found, with the same heap contents
at its RID, along any sequence of calls that neither inserts nor deletes
that id. -/
theorem stepAvoid_preserve {id rid : Int} {rec : Record} {e e' : Engine}
    (htr : Relation.ReflTransGen (StepAvoid id) e e')
    (h : e.idIndex.Ordered ∧ IdxPointsTo e ∧ e.idIndex.find id = some rid ∧
      heapGetD e.heap rid = rec) :
    e'.idIndex.Ordered ∧ IdxPointsTo e' ∧ e'.idIndex.find id = some rid ∧
      heapGetD e'.heap rid = rec := by
  induction htr with
  | refl => exact h
  | tail hab hstep ih =>
    obtain ⟨hord, hpt, hfind, hrec⟩ := ih
    cases hstep with
    | insert r hne =>
      obtain ⟨hordS, hptS⟩ := insertRecord_ordered_pointsTo ⟨hord, hpt⟩ r
      refine ⟨hordS, hptS, ?_, ?_⟩
      · rw [insertRecord_idIndex, BST.find_insert_ne _ _ (Ne.symm hne)]
        exact hfind
      · obtain ⟨h0, h1, _⟩ := hpt id rid hfind
        rw [insertRecord_heap, heapGetD_append_of_lt _ _ _ h1]
        exact hrec
    | delete i hne =>
      rename_i e2
      obtain ⟨hordS, hptS⟩ := deleteById_ordered_pointsTo ⟨hord, hpt⟩ i
      cases hf : e2.idIndex.find i with
      | none =>
        rw [deleteById_of_find_none hf]
        exact ⟨hord, hpt, hfind, hrec⟩
      | some rid2 =>
        refine ⟨hordS, hptS, ?_, ?_⟩
        · rw [deleteById_idIndex_of_find_some hf, BST.find_erase_ne hord (Ne.symm hne)]
          exact hfind
        · have hne2 : rid ≠ rid2 := by
            intro hcc
            subst hcc
            obtain ⟨_, _, hid1⟩ := hpt id rid hfind
            obtain ⟨_, _, hid2⟩ := hpt i rid hf
            exact hne (hid2.symm.trans hid1)
          rw [deleteById_heap_of_find_some hf, heapGetD_setDeleted_ne _ _ _ hne2]
          exact hrec

/-! ## Claim theorems -/

/-- Claim C1: the spec says `insertRecord(r)` returns the heap's length
immediately before the call (the new record's RID).  The source computes
that RID and appends the record at it, but the function — declared to
return `int` — reaches the end of its body without any `return`
statement, so no value is returned at all (undefined behaviour in C++,
rendered here as `none`).  The state effect (append at the prior length)
is as specified; the return value is not. -/
theorem C1_insertRecord_missing_return :
    ∀ (e : Engine) (r : Record),
      (e.insertRecord r).1.heap = e.heap ++ [r] ∧ (e.insertRecord r).2 = none :=
  fun _ _ => ⟨rfl, rfl⟩

/-- Claim C2: `deleteById` returns failure (`false`) exactly when the id
is absent from `idIndex`, and in that case the whole engine state is
returned unchanged; when the id is present the function performs the
deletion but reaches the end of its body without `return true`, so it
produces no return value (the claim's "returns success" is the intended,
not the actual, behaviour).  The second of two consecutive deletes of the
same id finds the id absent, returns `false`, and changes nothing. -/
theorem C2_deleteById_return_spec :
    ∀ (e : Engine) (id : Int),
      (e.idIndex.find id = none → e.deleteById id = (e, some false)) ∧
      (∀ rid, e.idIndex.find id = some rid → (e.deleteById id).2 = none) ∧
      (e.idIndex.Ordered → ∀ rid, e.idIndex.find id = some rid →
        (e.deleteById id).1.idIndex.find id = none ∧
        (e.deleteById id).1.deleteById id = ((e.deleteById id).1, some false)) := by
  intro e id
  refine ⟨?_, ?_, ?_⟩
  · intro h
    exact deleteById_of_find_none h
  · intro rid h
    exact deleteById_ret_of_find_some h
  · intro hord rid h
    have hnone : (e.deleteById id).1.idIndex.find id = none := by
      rw [deleteById_idIndex_of_find_some h]
      exact BST.find_erase_self hord id
    exact ⟨hnone, deleteById_of_find_none hnone⟩

/-- Witness for the C2 theorem: the section-8 scenario engine and id 1
(present at RID 1); the first delete produces no return value, the second
finds the id absent and returns `(unchanged state, false)`. -/
theorem C2_deleteById_return_spec_witness :
    (sample3.deleteById 1).2 = none ∧
    (sample3.deleteById 1).1.idIndex.find 1 = none ∧
    (sample3.deleteById 1).1.deleteById 1 = ((sample3.deleteById 1).1, some false) := by
  have h := C2_deleteById_return_spec sample3 1
  exact ⟨h.2.1 1 (by decide), (h.2.2 (by decide) 1 (by decide)).1,
    (h.2.2 (by decide) 1 (by decide)).2⟩

/-- Claim C3: on the section-8 scenario (Smith id 3 at RID 0, smith id 1
at RID 1, Jones id 2 at RID 2, all live), `prefixByLast "sm"` returns
only RID 0, even though the record at RID 1 is live and its lowercase
last name also starts with the lowered query.  The bucket test at
Engine.h line 164 compares the RID against
`(int)(heap.size() && !heap[recordID].deleted)`, a boolean cast to 0 or
1, instead of against `heap.size()`, so only RID 0 can ever be kept and
the claimed set equality fails. -/
theorem C3_prefixByLast_drops_matching_record :
    sample3.prefixByLast ['s', 'm'] = [0] ∧
    (heapGetD sample3.heap 1).deleted = false ∧
    toLower (heapGetD sample3.heap 1).last = ['s', 'm', 'i', 't', 'h'] ∧
    (toLower ['s', 'm']).isPrefixOf (toLower (heapGetD sample3.heap 1).last) = true ∧
    (1 : Int) ∉ sample3.prefixByLast ['s', 'm'] := by
  decide

/-- Claim C8 counterexample: `insertRecord` copies the supplied record
verbatim and never resets its `deleted` flag, so inserting a record whose
flag is already true yields a heap slot that is deleted immediately after
the call, contradicting the claim that the appended record always has
`deleted = false`. -/
theorem C8_counterexample :
    (Engine.empty.insertRecord ⟨7, ['x'], true⟩).1.heap = [⟨7, ['x'], true⟩] ∧
    (heapGetD (Engine.empty.insertRecord ⟨7, ['x'], true⟩).1.heap 0).deleted = true := by
  decide

/-- Claim C8 amended: the record appended to the heap by `insertRecord`
is the supplied record unchanged, so its `deleted` flag equals the
supplied record's flag; a freshly inserted record is live exactly when
the caller supplies it with `deleted = false` (which the Record contract
of spec sections 3 and 6 guarantees). -/
theorem C8_inserted_flag_eq_supplied :
    ∀ (e : Engine) (r : Record),
      heapGetD (e.insertRecord r).1.heap (e.heap.length : Int) = r ∧
      (heapGetD (e.insertRecord r).1.heap (e.heap.length : Int)).deleted = r.deleted := by
  intro e r
  have h : heapGetD (e.insertRecord r).1.heap (e.heap.length : Int) = r := by
    rw [insertRecord_heap, heapGetD_append_self]
  exact ⟨h, by rw [h]⟩

/-- Claim C9: a `deleteById` that finds its id performs no physical
removal: the heap length is unchanged, every slot other than the target
is untouched, and the target slot keeps every field except `deleted`,
which becomes true. -/
theorem C9_delete_frame {e : Engine} {id rid : Int}
    (hfind : e.idIndex.find id = some rid) (h0 : 0 ≤ rid)
    (hlen : rid.toNat < e.heap.length) :
    (e.deleteById id).1.heap.length = e.heap.length ∧
    (∀ j : Nat, (j : Int) ≠ rid → (e.deleteById id).1.heap[j]? = e.heap[j]?) ∧
    heapGetD (e.deleteById id).1.heap rid =
      { heapGetD e.heap rid with deleted := true } := by
  rw [deleteById_heap_of_find_some hfind]
  refine ⟨setDeleted_length _ _, ?_, heapGetD_setDeleted_self _ _ h0 hlen⟩
  intro j hj
  rw [setDeleted_getElem, if_neg hj]

/-- Witness for the C9 theorem: deleting id 1 (RID 1) from the section-8
scenario engine keeps all three slots, changes slot 1 only in its
`deleted` flag, and leaves slots 0 and 2 untouched. -/
theorem C9_delete_frame_witness :
    (sample3.deleteById 1).1.heap.length = sample3.heap.length ∧
    (∀ j : Nat, (j : Int) ≠ (1 : Int) →
      (sample3.deleteById 1).1.heap[j]? = sample3.heap[j]?) ∧
    heapGetD (sample3.deleteById 1).1.heap 1 =
      { heapGetD sample3.heap 1 with deleted := true } :=
  C9_delete_frame (by decide) (by decide) (by decide)

/-- Claim C10: every RID kept by the `rangeById` visitor has passed the
explicit bounds-and-liveness check `recordID >= 0 && recordID <
heap.size() && !heap[recordID].deleted`, so a RID in the result is always
a valid, live heap position, and an `idIndex` entry whose RID is out of
the heap's bounds is skipped without being dereferenced and never
contributes to the result — in any engine state, well-formed or not. -/
theorem C10_rangeById_bounds_safe :
    ∀ (e : Engine) (lo hi rid : Int), rid ∈ e.rangeById lo hi →
      0 ≤ rid ∧ rid.toNat < e.heap.length ∧
      (heapGetD e.heap rid).deleted = false := by
  intro e lo hi rid h
  obtain ⟨k, _, h0, h1, h2⟩ := mem_rangeById.mp h
  exact ⟨h0, by omega, h2⟩

/-- Witness for the C10 theorem: `sampleOob` has an in-bounds entry
`0 ↦ 0` and an out-of-bounds entry `5 ↦ 99`; RID 0 is in the range result
and satisfies the bounds, while the result as a whole is `[0]` — the RID
99 entry was skipped. -/
theorem C10_rangeById_bounds_safe_witness :
    (0 ≤ (0 : Int) ∧ (0 : Int).toNat < sampleOob.heap.length ∧
      (heapGetD sampleOob.heap 0).deleted = false) ∧
    sampleOob.rangeById 0 10 = [0] :=
  ⟨C10_rangeById_bounds_safe sampleOob 0 10 0 (by decide), by decide⟩

/-- Claim C4: in every state reachable from the empty engine under the
caller contract (records inserted live and with an unmapped id, per spec
sections 3, 4.2 and 6), and for `lo ≤ hi`, `rangeById lo hi` returns
exactly the RIDs of the live records whose id lies in `[lo, hi]` — every
returned RID is such a record and every such record's RID is returned —
in strictly ascending order of record id. -/
theorem C4_rangeById_correct {e : Engine} (hre : ReachableU Engine.empty e)
    {lo hi : Int} (hlohi : lo ≤ hi) :
    (∀ rid ∈ e.rangeById lo hi, 0 ≤ rid ∧ rid.toNat < e.heap.length ∧
      (heapGetD e.heap rid).deleted = false ∧
      lo ≤ (heapGetD e.heap rid).id ∧ (heapGetD e.heap rid).id ≤ hi) ∧
    (∀ n : Nat, n < e.heap.length → (heapGetD e.heap (n : Int)).deleted = false →
      lo ≤ (heapGetD e.heap (n : Int)).id → (heapGetD e.heap (n : Int)).id ≤ hi →
      (n : Int) ∈ e.rangeById lo hi) ∧
    (e.rangeById lo hi).Pairwise
      (fun a b => (heapGetD e.heap a).id < (heapGetD e.heap b).id) := by
  obtain ⟨⟨hord, hpt, hlive⟩, hcomp⟩ := reachableU_inv hre empty_inv
  refine ⟨?_, ?_, ?_⟩
  · intro rid hrid
    obtain ⟨k, hk, h0, _, h2⟩ := mem_rangeById.mp hrid
    have hmem := (BST.mem_rangeApply hord).mp hk
    have hfind : e.idIndex.find k = some rid :=
      (BST.find_eq_some_iff hord).mpr hmem.1
    obtain ⟨_, hlen, hid⟩ := hpt k rid hfind
    exact ⟨h0, hlen, h2, by rw [hid]; exact hmem.2.1, by rw [hid]; exact hmem.2.2⟩
  · intro n hn hlive2 hlo2 hhi2
    have hfind := hcomp n hn hlive2
    rw [mem_rangeById]
    refine ⟨(heapGetD e.heap (n : Int)).id, ?_, by positivity, by exact_mod_cast hn,
      hlive2⟩
    rw [BST.mem_rangeApply hord]
    exact ⟨(BST.find_eq_some_iff hord).mp hfind, hlo2, hhi2⟩
  · have hpw := BST.rangeApply_pairwise hord lo hi
    have hpw2 : (e.idIndex.rangeApply lo hi).Pairwise
        (fun kv1 kv2 => (heapGetD e.heap kv1.2).id < (heapGetD e.heap kv2.2).id) := by
      refine hpw.imp_of_mem ?_
      intro a b ha hb hab
      have hfa : e.idIndex.find a.1 = some a.2 := by
        rw [BST.find_eq_some_iff hord]
        simpa using BST.rangeApply_subset ha
      have hfb : e.idIndex.find b.1 = some b.2 := by
        rw [BST.find_eq_some_iff hord]
        simpa using BST.rangeApply_subset hb
      obtain ⟨_, _, hida⟩ := hpt a.1 a.2 hfa
      obtain ⟨_, _, hidb⟩ := hpt b.1 b.2 hfb
      rw [hida, hidb]
      exact hab
    unfold Engine.rangeById
    refine hpw2.filterMap _ ?_
    intro a b hab x hx y hy
    rw [Option.mem_def] at hx hy
    have hxa : x = a.2 := by
      by_cases hc : 0 ≤ a.2 ∧ a.2 < (e.heap.length : Int) ∧
          (heapGetD e.heap a.2).deleted = false
      · rw [if_pos hc] at hx
        exact (Option.some.inj hx).symm
      · rw [if_neg hc] at hx
        exact absurd hx (by simp)
    have hyb : y = b.2 := by
      by_cases hc : 0 ≤ b.2 ∧ b.2 < (e.heap.length : Int) ∧
          (heapGetD e.heap b.2).deleted = false
      · rw [if_pos hc] at hy
        exact (Option.some.inj hy).symm
      · rw [if_neg hc] at hy
        exact absurd hy (by simp)
    rw [hxa, hyb]
    exact hab

/-- Witness for the C4 theorem: the section-8 scenario state is reachable
under the caller contract, and with `lo = 1 ≤ 3 = hi` the theorem's three
conclusions hold for it. -/
theorem C4_rangeById_correct_witness :
    (∀ rid ∈ sample3.rangeById 1 3, 0 ≤ rid ∧ rid.toNat < sample3.heap.length ∧
      (heapGetD sample3.heap rid).deleted = false ∧
      1 ≤ (heapGetD sample3.heap rid).id ∧ (heapGetD sample3.heap rid).id ≤ 3) ∧
    (∀ n : Nat, n < sample3.heap.length →
      (heapGetD sample3.heap (n : Int)).deleted = false →
      1 ≤ (heapGetD sample3.heap (n : Int)).id →
      (heapGetD sample3.heap (n : Int)).id ≤ 3 →
      (n : Int) ∈ sample3.rangeById 1 3) ∧
    (sample3.rangeById 1 3).Pairwise
      (fun a b => (heapGetD sample3.heap a).id < (heapGetD sample3.heap b).id) := by
  have hre : ReachableU Engine.empty sample3 :=
    Relation.ReflTransGen.tail (Relation.ReflTransGen.tail (Relation.ReflTransGen.tail
      Relation.ReflTransGen.refl
      (StepU.insert Engine.empty ⟨3, ['S','m','i','t','h'], false⟩ rfl rfl))
      (StepU.insert sample1 ⟨1, ['s','m','i','t','h'], false⟩ rfl (by decide)))
      (StepU.insert sample2 ⟨2, ['J','o','n','e','s'], false⟩ rfl (by decide))
  exact C4_rangeById_correct hre (by norm_num)

/-- Claim C5: after a `deleteById` call that finds its id (the success
path), `findById` of that id is absent, and in every state reachable from
there by calls that do not insert a record with that id, `findById` stays
absent, the deleted RID's heap slot still exists, and that RID appears in
no `rangeById` result. -/
theorem C5_soft_delete_visibility {e : Engine} (hord : e.idIndex.Ordered)
    {id rid : Int} (hfind : e.idIndex.find id = some rid)
    (h0 : 0 ≤ rid) (hlen : rid.toNat < e.heap.length) :
    (e.deleteById id).1.findById id = none ∧
    ∀ e' : Engine, Relation.ReflTransGen (StepNoIns id) (e.deleteById id).1 e' →
      e'.findById id = none ∧ rid.toNat < e'.heap.length ∧
      ∀ lo hi : Int, rid ∉ e'.rangeById lo hi := by
  have hord1 : (e.deleteById id).1.idIndex.Ordered := by
    rw [deleteById_idIndex_of_find_some hfind]
    exact BST.erase_ordered hord id
  have hfind1 : (e.deleteById id).1.idIndex.find id = none := by
    rw [deleteById_idIndex_of_find_some hfind]
    exact BST.find_erase_self hord id
  have hlen1 : rid.toNat < (e.deleteById id).1.heap.length := by
    rw [deleteById_heap_of_find_some hfind, setDeleted_length]
    exact hlen
  have hdel1 : (heapGetD (e.deleteById id).1.heap rid).deleted = true := by
    rw [deleteById_heap_of_find_some hfind, heapGetD_setDeleted_self _ _ h0 hlen]
  refine ⟨findById_of_find_none hfind1, ?_⟩
  intro e2 htr
  obtain ⟨hordE, hfindE, hlenE, hdelE⟩ :=
    stepNoIns_preserve htr ⟨hord1, hfind1, hlen1, hdel1⟩
  refine ⟨findById_of_find_none hfindE, hlenE, ?_⟩
  intro lo hi hmem
  obtain ⟨k, _, _, _, hlive⟩ := mem_rangeById.mp hmem
  rw [hdelE] at hlive
  exact Bool.noConfusion hlive

/-- Witness for the C5 theorem: deleting id 1 (RID 1) from the section-8
scenario engine. -/
theorem C5_soft_delete_visibility_witness :
    (sample3.deleteById 1).1.findById 1 = none ∧
    ∀ e' : Engine, Relation.ReflTransGen (StepNoIns 1) (sample3.deleteById 1).1 e' →
      e'.findById 1 = none ∧ (1 : Int).toNat < e'.heap.length ∧
      ∀ lo hi : Int, (1 : Int) ∉ e'.rangeById lo hi :=
  C5_soft_delete_visibility (by decide) (by decide) (by decide) (by decide)

/-- Claim C6: a record `r` inserted via `insertRecord` into a well-formed
state and thereafter neither deleted by id nor shadowed by a later insert
of the same id is returned by `findById r.id`, equal to `r`. -/
theorem C6_round_trip {e : Engine} (hord : e.idIndex.Ordered) (hpt : IdxPointsTo e)
    {r : Record} (hr : r.deleted = false) {e2 : Engine}
    (htr : Relation.ReflTransGen (StepAvoid r.id) (e.insertRecord r).1 e2) :
    e2.findById r.id = some r := by
  have hbase : (e.insertRecord r).1.idIndex.Ordered ∧
      IdxPointsTo (e.insertRecord r).1 ∧
      (e.insertRecord r).1.idIndex.find r.id = some (e.heap.length : Int) ∧
      heapGetD (e.insertRecord r).1.heap (e.heap.length : Int) = r := by
    obtain ⟨ho, hp⟩ := insertRecord_ordered_pointsTo ⟨hord, hpt⟩ r
    refine ⟨ho, hp, ?_, ?_⟩
    · rw [insertRecord_idIndex, BST.find_insert_self]
    · rw [insertRecord_heap, heapGetD_append_self]
  obtain ⟨_, _, hfindE, hrecE⟩ := stepAvoid_preserve htr hbase
  rw [findById_of_find_some hfindE, hrecE, hr]
  simp

/-- Witness for the C6 theorem: insert Smith (id 3) into the empty
engine, then insert smith (id 1) and delete id 1; `findById 3` still
returns the Smith record. -/
theorem C6_round_trip_witness :
    (sample2.deleteById 1).1.findById 3 = some ⟨3, ['S','m','i','t','h'], false⟩ := by
  have h1 : StepAvoid (3 : Int) sample1 sample2 :=
    StepAvoid.insert sample1 ⟨1, ['s','m','i','t','h'], false⟩ (by decide)
  have h2 : StepAvoid (3 : Int) sample2 (sample2.deleteById 1).1 :=
    StepAvoid.delete sample2 1 (by decide)
  have htr := Relation.ReflTransGen.tail
    (Relation.ReflTransGen.tail Relation.ReflTransGen.refl h1) h2
  exact C6_round_trip (e := Engine.empty) (r := ⟨3, ['S','m','i','t','h'], false⟩)
    trivial (fun k rid h => Option.noConfusion h) rfl htr

/-- Claim C7: in every state reachable from the empty engine by engine
calls (with records supplied live, per the Record contract), `idIndex`
has an entry for id `k` exactly when the record at the RID that entry
maps to exists in the heap and is not soft-deleted. -/
theorem C7_idIndex_invariant {e : Engine} (hre : Reachable Engine.empty e) :
    ∀ k : Int, (e.idIndex.find k).isSome ↔
      ∃ rid : Int, e.idIndex.find k = some rid ∧ 0 ≤ rid ∧
        rid.toNat < e.heap.length ∧ (heapGetD e.heap rid).deleted = false := by
  have hinv := reachable_invId hre empty_inv.1
  intro k
  constructor
  · intro hsome
    cases hf : e.idIndex.find k with
    | none => rw [hf] at hsome; simp at hsome
    | some rid =>
      obtain ⟨h0, hlen, _⟩ := hinv.2.1 k rid hf
      exact ⟨rid, rfl, h0, hlen, hinv.2.2 k rid hf⟩
  · rintro ⟨rid, hf, _⟩
    rw [hf]
    rfl

/-- Witness for the C7 theorem: the state after the three section-8
inserts followed by deleting id 1 is reachable from the empty engine, and
the invariant is instantiated at id 3 (still present, mapped to the live
RID 0). -/
theorem C7_idIndex_invariant_witness :
    ((sample3.deleteById 1).1.idIndex.find 3).isSome ↔
      ∃ rid : Int, (sample3.deleteById 1).1.idIndex.find 3 = some rid ∧ 0 ≤ rid ∧
        rid.toNat < (sample3.deleteById 1).1.heap.length ∧
        (heapGetD (sample3.deleteById 1).1.heap rid).deleted = false := by
  have hre : Reachable Engine.empty (sample3.deleteById 1).1 :=
    Relation.ReflTransGen.tail (Relation.ReflTransGen.tail (Relation.ReflTransGen.tail
      (Relation.ReflTransGen.tail Relation.ReflTransGen.refl
        (Step.insert Engine.empty ⟨3, ['S','m','i','t','h'], false⟩ rfl))
      (Step.insert sample1 ⟨1, ['s','m','i','t','h'], false⟩ rfl))
      (Step.insert sample2 ⟨2, ['J','o','n','e','s'], false⟩ rfl))
      (Step.delete sample3 1)
  exact C7_idIndex_invariant hre 3

end MiniDB
